import Mathlib

set_option maxHeartbeats 1000000
set_option maxRecDepth 4000

/-!
Verification development for the IDL module (src/ts/src/idl.ts): the schema
model, the borsh layout compiler (`IdlCoder.fieldLayout` / `typeDefLayout`),
the size estimator (`accountSize` / `typeSize`), the instruction
discriminator (`sighash`), and the schema-account codec
(`encodeIdlAccount` / `decodeIdlAccount`).

Machine integers are modelled as `Nat` / `Int` with explicit `% 2^w` where
overflow matters; JavaScript exceptions are modelled as `Except` errors.
The external borsh / buffer-layout codec objects, the SHA-256 digest and the
snake-case normalizer are external libraries, not part of src/; their
behavior is modelled from the spec (each such definition is marked
`Modelled from the spec:`). Everything else is translated directly from the
TypeScript source.
-/

/-- Primitive and composite IDL type tags: the `IdlType` union of the source
(14 string-literal primitives plus the `Defined`, `Option`, `Vec` and
`Array` object forms). -/
inductive IdlType where
  | bool | u8 | i8 | u16 | i16 | u32 | i32 | u64 | i64 | u128 | i128
  | bytes | string | publicKey
  | defined (name : String)
  | option (inner : IdlType)
  | vec (inner : IdlType)
  | array (inner : IdlType) (size : Nat)
deriving DecidableEq

/-- A named field: the source's `IdlField` (`{name, type}`). -/
structure IdlField where
  name : String
  type : IdlType
deriving DecidableEq

/-- Enum-variant fields: the source's `IdlEnumFields`, either named fields
(`IdlEnumFieldsNamed = IdlField[]`) or a tuple of bare types
(`IdlEnumFieldsTuple = IdlType[]`).  In TypeScript an empty `fields` array
inhabits both alternatives; the two Lean constructors with empty lists are
treated identically by every embedded function. -/
inductive IdlEnumFields where
  | named (fields : List IdlField)
  | tuple (types : List IdlType)
deriving DecidableEq

/-- An enum variant: a name plus optional fields (`IdlEnumVariant`). -/
structure IdlEnumVariant where
  name : String
  fields : Option IdlEnumFields
deriving DecidableEq

/-- Body of a type definition: the source's `IdlTypeDefTy`
(`{kind: "struct", fields}` or `{kind: "enum", variants}`). -/
inductive IdlTypeDefTy where
  | struct (fields : List IdlField)
  | enum (variants : List IdlEnumVariant)
deriving DecidableEq

/-- A named type definition (`IdlTypeDef`). -/
structure IdlTypeDef where
  name : String
  type : IdlTypeDefTy
deriving DecidableEq

/-- The schema root (`Idl`), restricted to the fields the embedded functions
consume: `types` is the optional type-definition list consulted by
`typeSize`; `accounts` is carried for completeness.  The instruction,
event, error and state descriptors of the source type are not read by any
function in this file and are omitted. -/
structure Idl where
  version : String
  name : String
  types : Option (List IdlTypeDef) := none
  accounts : Option (List IdlTypeDef) := none
deriving DecidableEq

/-- JavaScript exception kinds thrown by the embedded functions:
`idl` models the source's `IdlError` class, `js` models plain `Error` /
`TypeError` instances.  `outOfFuel` is the embedding's image of
non-termination: the source performs fresh name-based lookups on every
recursive call with no cycle guard, so a self-referential `Defined` chain
never returns; every embedded recursive function consumes one unit of fuel
per call and reports `outOfFuel` where the source would diverge. -/
inductive JsErr where
  | idl (msg : String)
  | js (msg : String)
  | outOfFuel
deriving DecidableEq

/-- Modelled from the spec: the composable codec objects built by the
external `@project-serum/borsh` / `buffer-layout` libraries (not part of
src/).  Each constructor is one layout combinator the source requests:
`boolL` (borsh.bool), `uintL w` / `sintL w` (the little-endian fixed-width
integer layouts of `w` bytes: borsh.u8/u16/u32/u64/u128 and
i8/i16/i32/i64/i128), `bytesL` (borsh.vecU8 and borsh.str: u32
length-prefixed raw bytes), `blobL n` (fixed `n`-byte blob: borsh.publicKey
is `blobL 32`), `vecL` (borsh.vec), `optionL` (borsh.option), `arrayL`
(borsh.array), `structL` (borsh.struct) and `rustEnumL` (borsh.rustEnum).
JavaScript property names attached to layouts only direct object keys on
decode, never bytes, and are omitted. -/
inductive Layout where
  | boolL
  | uintL (w : Nat)
  | sintL (w : Nat)
  | bytesL
  | blobL (n : Nat)
  | vecL (inner : Layout)
  | optionL (inner : Layout)
  | arrayL (inner : Layout) (n : Nat)
  | structL (fields : List Layout)
  | rustEnumL (variants : List Layout)

namespace IdlCoder

mutual

/-- `IdlCoder.fieldLayout(field, types?)` from the source, with explicit
fuel.  The field's optional display name only affects JavaScript object
keys and is omitted.  The first `Option` argument is the field's `type`
property, which can be `undefined` (= `none`) because the source's Vec
branch recurses with `type: field.type.vec` — the lowercase key `vec` does
not exist on the `IdlTypeVec` object (its key is `Vec`, and the access is
hidden behind a `@ts-ignore`), so the recursive call receives `undefined`.
On `undefined` the `switch` falls to `default` and evaluates
`"Vec" in field.type`, which throws a `TypeError`. -/
def fieldLayout : Nat → Option IdlType → Option (List IdlTypeDef) → Except JsErr Layout
  | 0, _, _ => .error .outOfFuel
  | _+1, none, _ =>
      .error (.js "TypeError: cannot use in operator on undefined")
  | fuel+1, some ty, types =>
    match ty with
    | .bool => .ok .boolL
    | .u8 => .ok (.uintL 1)
    | .i8 => .ok (.sintL 1)
    | .u16 => .ok (.uintL 2)
    | .i16 => .ok (.sintL 2)
    | .u32 => .ok (.uintL 4)
    | .i32 => .ok (.sintL 4)
    | .u64 => .ok (.uintL 8)
    | .i64 => .ok (.sintL 8)
    | .u128 => .ok (.uintL 16)
    | .i128 => .ok (.sintL 16)
    | .bytes => .ok .bytesL
    | .string => .ok .bytesL
    | .publicKey => .ok (.blobL 32)
    | .vec _ => do
        let inner ← fieldLayout fuel none types
        .ok (.vecL inner)
    | .option innerTy => do
        let inner ← fieldLayout fuel (some innerTy) types
        .ok (.optionL inner)
    | .defined nm =>
      match types with
      | none => .error (.idl "User defined types not provided")
      | some ts =>
        -- The source checks `filtered.length !== 1` and then uses
        -- `filtered[0]`; matching the filter result against a one-element
        -- list is the same test.  `JSON.stringify(field)` in the message is
        -- modelled as the referenced name.
        match ts.filter (fun t => t.name == nm) with
        | [td] => typeDefLayout fuel td ts
        | _ => .error (.idl ("Type not found: " ++ nm))
    | .array innerTy n => do
        let inner ← fieldLayout fuel (some innerTy) types
        .ok (.arrayL inner n)

/-- `IdlCoder.typeDefLayout(typeDef, types)` from the source.  The
`name` / `replicate` handling only attaches a JavaScript property name and
is omitted; the `else` branch for an unknown `kind` is unreachable because
the embedded `IdlTypeDefTy` is closed. -/
def typeDefLayout : Nat → IdlTypeDef → List IdlTypeDef → Except JsErr Layout
  | 0, _, _ => .error .outOfFuel
  | fuel+1, td, types =>
    match td.type with
    | .struct fields => do
        let ls ← fieldLayoutsM fuel fields types
        .ok (.structL ls)
    | .enum variants => do
        let vls ← variantLayoutsM fuel variants types
        .ok (.rustEnumL vls)

/-- The `typeDef.type.fields.map((field) => IdlCoder.fieldLayout(field, types))`
traversal of the source's struct branch, sequenced left to right as
JavaScript `map` evaluates it (the first throw wins). -/
def fieldLayoutsM : Nat → List IdlField → List IdlTypeDef → Except JsErr (List Layout)
  | 0, _, _ => .error .outOfFuel
  | _+1, [], _ => .ok []
  | fuel+1, f :: fs, types => do
      let l ← fieldLayout fuel (some f.type) (some types)
      let ls ← fieldLayoutsM fuel fs types
      .ok (l :: ls)

/-- The `typeDef.type.variants.map(...)` traversal of the source's enum
branch. -/
def variantLayoutsM : Nat → List IdlEnumVariant → List IdlTypeDef → Except JsErr (List Layout)
  | 0, _, _ => .error .outOfFuel
  | _+1, [], _ => .ok []
  | fuel+1, v :: vs, types => do
      let l ← variantLayoutM fuel v types
      let ls ← variantLayoutsM fuel vs types
      .ok (l :: ls)

/-- One variant of the source's enum branch: fields absent gives
`borsh.struct([])`; named fields all carry a `name`, so the
`f.name === undefined` guard passes and each is compiled with
`fieldLayout`; tuple elements (bare `IdlType`s) have no `name` property, so
the guard throws on the first element. -/
def variantLayoutM : Nat → IdlEnumVariant → List IdlTypeDef → Except JsErr Layout
  | 0, _, _ => .error .outOfFuel
  | fuel+1, v, types =>
    match v.fields with
    | none => .ok (.structL [])
    | some (.named fs) => do
        let ls ← fieldLayoutsM fuel fs types
        .ok (.structL ls)
    | some (.tuple ts) => do
        let ls ← tupleLayoutsM fuel ts types
        .ok (.structL ls)

/-- The map over tuple-variant elements: every element fails the
`f.name === undefined` guard, so a non-empty tuple throws at its first
element and an empty tuple maps to no layouts at all. -/
def tupleLayoutsM : Nat → List IdlType → List IdlTypeDef → Except JsErr (List Layout)
  | 0, _, _ => .error .outOfFuel
  | _+1, [], _ => .ok []
  | _+1, _ :: _, _ => .error (.js "Tuple enum variants not yet implemented.")

end

end IdlCoder

/-- `Array.prototype.reduce((a, b) => a + b)` with no initial value, as the
source's `accountSize` applies it to the per-field sizes of a variant:
JavaScript throws a `TypeError` on an empty array. -/
def reduceAdd : List Nat → Except JsErr Nat
  | [] => .error (.js "Reduce of empty array with no initial value")
  | s :: ss => .ok (ss.foldl (· + ·) s)

/-- `Math.max(...variantSizes)`: the maximum of a non-empty list.  On an
empty argument list JavaScript returns `-Infinity`, which has no image in
`Nat`; the embedding reports it as an error (no claim exercises an enum
with zero variants). -/
def jsMax : List Nat → Except JsErr Nat
  | [] => .error (.js "Math.max of no arguments is -Infinity")
  | s :: ss => .ok ((s :: ss).foldr Nat.max 0)

mutual

/-- `accountSize(idl, idlAccount)` from the source, with explicit fuel.
For an enum it maps every variant to a size and returns
`Math.max(...variantSizes) + 1`; for a struct it sums the per-field sizes
with `reduce((a, b) => a + b, 0)` (the `fields === undefined` guard of the
source cannot fire on the closed embedded type, and the explicit initial
value `0` makes the empty struct return 0). -/
def accountSize : Nat → Idl → IdlTypeDef → Except JsErr Nat
  | 0, _, _ => .error .outOfFuel
  | fuel+1, idl, idlAccount =>
    match idlAccount.type with
    | .enum variants => do
        let variantSizes ← variantSizesM fuel idl variants
        let m ← jsMax variantSizes
        .ok (m + 1)
    | .struct fields => do
        let sizes ← fieldSizesM fuel idl fields
        .ok (sizes.foldl (· + ·) 0)

/-- The `variants.map((variant) => ...)` traversal of `accountSize`. -/
def variantSizesM : Nat → Idl → List IdlEnumVariant → Except JsErr (List Nat)
  | 0, _, _ => .error .outOfFuel
  | _+1, _, [] => .ok []
  | fuel+1, idl, v :: vs => do
      let s ← variantSizeM fuel idl v
      let rest ← variantSizesM fuel idl vs
      .ok (s :: rest)

/-- One variant's size in `accountSize`: absent fields return 0;
otherwise the fields are mapped to sizes (tuple elements fail the
`typeof f === "object" && "name" in f` guard and throw) and then reduced
with no initial value, so an empty fields array throws in `reduceAdd`. -/
def variantSizeM : Nat → Idl → IdlEnumVariant → Except JsErr Nat
  | 0, _, _ => .error .outOfFuel
  | fuel+1, idl, v =>
    match v.fields with
    | none => .ok 0
    | some (.named fs) => do
        let sizes ← fieldSizesM fuel idl fs
        reduceAdd sizes
    | some (.tuple ts) => do
        let sizes ← tupleSizesM fuel idl ts
        reduceAdd sizes

/-- Sizes of a list of named fields via `typeSize`, sequenced like the
source's `map`. -/
def fieldSizesM : Nat → Idl → List IdlField → Except JsErr (List Nat)
  | 0, _, _ => .error .outOfFuel
  | _+1, _, [] => .ok []
  | fuel+1, idl, f :: fs => do
      let s ← typeSize fuel idl f.type
      let rest ← fieldSizesM fuel idl fs
      .ok (s :: rest)

/-- The map over tuple-variant elements inside `accountSize`: every bare
`IdlType` element fails the object-with-`name` guard, so a non-empty tuple
throws at its first element. -/
def tupleSizesM : Nat → Idl → List IdlType → Except JsErr (List Nat)
  | 0, _, _ => .error .outOfFuel
  | _+1, _, [] => .ok []
  | _+1, _, _ :: _ => .error (.js "Tuple enum variants not yet implemented.")

/-- `typeSize(idl, ty)` from the source: fixed widths for the primitives,
1 for the variable-length kinds (`Bytes`, `String`, `Vec`), `1 + inner`
for `Option`, resolution through `idl.types ?? []` for `Defined` (zero or
multiple matches throw `IdlError`), and `inner * size` for `Array`.  The
trailing `Invalid type` throw is unreachable on the closed embedded type. -/
def typeSize : Nat → Idl → IdlType → Except JsErr Nat
  | 0, _, _ => .error .outOfFuel
  | fuel+1, idl, ty =>
    match ty with
    | .bool => .ok 1
    | .u8 => .ok 1
    | .i8 => .ok 1
    | .i16 => .ok 2
    | .u16 => .ok 2
    | .u32 => .ok 4
    | .i32 => .ok 4
    | .u64 => .ok 8
    | .i64 => .ok 8
    | .u128 => .ok 16
    | .i128 => .ok 16
    | .bytes => .ok 1
    | .string => .ok 1
    | .publicKey => .ok 32
    | .vec _ => .ok 1
    | .option inner => do
        let s ← typeSize fuel idl inner
        .ok (1 + s)
    | .defined nm =>
      match (idl.types.getD []).filter (fun t => t.name == nm) with
      | [td] => accountSize fuel idl td
      | _ => .error (.idl ("Type not found: " ++ nm))
    | .array inner n => do
        let s ← typeSize fuel idl inner
        .ok (s * n)

end

/-- Modelled from the spec: the values a compiled borsh layout encodes and
decodes.  JavaScript objects are positional here (property names are
layout metadata, not bytes): `vBytes` carries the raw bytes of a
`Bytes` / `String` / `PublicKey` value, `vList` a `Vec` or `Array` value,
`vStruct` a struct value in declared field order, and `vEnum tag payload`
an enum value of the variant at zero-based declaration index `tag` whose
fields form the `vStruct` payload. -/
inductive Value where
  | vBool (b : Bool)
  | vNat (n : Nat)
  | vInt (i : Int)
  | vBytes (bs : List Nat)
  | vNone
  | vSome (v : Value)
  | vList (vs : List Value)
  | vStruct (vs : List Value)
  | vEnum (tag : Nat) (payload : Value)

/-- Little-endian bytes of `v`, exactly `w` bytes (truncating above
`256 ^ w`). -/
def natLE : Nat → Nat → List Nat
  | 0, _ => []
  | w+1, v => v % 256 :: natLE w (v / 256)

/-- Read a little-endian byte list back into a number. -/
def leNat : List Nat → Nat
  | [] => 0
  | b :: bs => b + 256 * leNat bs

/-- Split off exactly `n` leading bytes, failing on a short buffer (the
`BufferTooShort` condition of the spec). -/
def takeExact (n : Nat) (bs : List Nat) : Option (List Nat × List Nat) :=
  if n ≤ bs.length then some (bs.take n, bs.drop n) else none

/-- Half of `256 ^ w`: the magnitude bound of a `w`-byte two's-complement
integer. -/
def halfRange (w : Nat) : Nat := 256 ^ w / 2

mutual

/-- Modelled from the spec: `encode` of a compiled layout, producing the
canonical borsh bytes — little-endian fixed-width integers (two's
complement for the signed layouts), `u32` length-prefixed blobs for
`Bytes` / `String` / `Vec`, a one-byte presence flag for `Option`, exactly
`n` consecutive inner encodings for `Array`, field encodings in declared
order for structs, and a one-byte zero-based variant discriminant followed
by the variant payload for `rustEnum`.  A value of the wrong shape for the
layout encodes to no bytes (the library would throw; no theorem relies on
mismatched shapes). -/
def encodeL : Layout → Value → List Nat
  | .boolL, .vBool b => [if b then 1 else 0]
  | .uintL w, .vNat n => natLE w n
  | .sintL w, .vInt i => natLE w (Int.toNat (i % ((256 ^ w : Nat) : Int)))
  | .bytesL, .vBytes bs => natLE 4 bs.length ++ bs
  | .blobL _, .vBytes bs => bs
  | .vecL inner, .vList vs => natLE 4 vs.length ++ encodeAll inner vs
  | .optionL _, .vNone => [0]
  | .optionL inner, .vSome v => 1 :: encodeL inner v
  | .arrayL inner _, .vList vs => encodeAll inner vs
  | .structL ls, .vStruct vs => encodeFields ls vs
  | .rustEnumL variants, .vEnum tag pv => natLE 1 tag ++ encodeVariant variants tag pv
  | _, _ => []
termination_by l _ => (sizeOf l, 0)

/-- Encode every element of a `Vec` / `Array` value with the same inner
layout, concatenating. -/
def encodeAll : Layout → List Value → List Nat
  | _, [] => []
  | l, v :: vs => encodeL l v ++ encodeAll l vs
termination_by l vs => (sizeOf l, 1 + sizeOf vs)

/-- Encode struct fields pairwise against the field layouts. -/
def encodeFields : List Layout → List Value → List Nat
  | [], _ => []
  | _ :: _, [] => []
  | l :: ls, v :: vs => encodeL l v ++ encodeFields ls vs
termination_by ls _ => (sizeOf ls, 0)

/-- Encode an enum payload against the variant layout at the given
zero-based index (no bytes when the index is out of range). -/
def encodeVariant : List Layout → Nat → Value → List Nat
  | [], _, _ => []
  | l :: _, 0, pv => encodeL l pv
  | _ :: ls, n+1, pv => encodeVariant ls n pv
termination_by ls _ _ => (sizeOf ls, 0)

end

mutual

/-- Modelled from the spec: `decode` of a compiled layout, consuming a
prefix of the byte list and returning the decoded value with the unread
remainder; a buffer shorter than the encoding demands rejects with
`none`. -/
def decodeL : Layout → List Nat → Option (Value × List Nat)
  | .boolL, b :: rest => some (.vBool (b != 0), rest)
  | .boolL, [] => none
  | .uintL w, bs => do
      let (pre, rest) ← takeExact w bs
      some (.vNat (leNat pre), rest)
  | .sintL w, bs => do
      let (pre, rest) ← takeExact w bs
      let n := leNat pre
      some (.vInt (if 2 * n < 256 ^ w then (n : Int) else (n : Int) - ((256 ^ w : Nat) : Int)), rest)
  | .bytesL, bs => do
      let (pre, rest) ← takeExact 4 bs
      let (payload, rest2) ← takeExact (leNat pre) rest
      some (.vBytes payload, rest2)
  | .blobL n, bs => do
      let (payload, rest) ← takeExact n bs
      some (.vBytes payload, rest)
  | .vecL inner, bs => do
      let (pre, rest) ← takeExact 4 bs
      let (vs, rest2) ← decodeMany inner (leNat pre) rest
      some (.vList vs, rest2)
  | .optionL inner, b :: rest =>
      if b = 0 then some (.vNone, rest)
      else if b = 1 then do
        let (v, rest2) ← decodeL inner rest
        some (.vSome v, rest2)
      else none
  | .optionL _, [] => none
  | .arrayL inner n, bs => do
      let (vs, rest) ← decodeMany inner n bs
      some (.vList vs, rest)
  | .structL ls, bs => do
      let (vs, rest) ← decodeFields ls bs
      some (.vStruct vs, rest)
  | .rustEnumL variants, b :: rest => do
      let (pv, rest2) ← decodeVariant variants b rest
      some (.vEnum b pv, rest2)
  | .rustEnumL _, [] => none
termination_by l _ => (sizeOf l, 0)

/-- Decode `n` consecutive values of the same inner layout. -/
def decodeMany : Layout → Nat → List Nat → Option (List Value × List Nat)
  | _, 0, bs => some ([], bs)
  | l, n+1, bs => do
      let (v, rest) ← decodeL l bs
      let (vs, rest2) ← decodeMany l n rest
      some (v :: vs, rest2)
termination_by l n _ => (sizeOf l, 1 + n)

/-- Decode struct fields in declared order. -/
def decodeFields : List Layout → List Nat → Option (List Value × List Nat)
  | [], bs => some ([], bs)
  | l :: ls, bs => do
      let (v, rest) ← decodeL l bs
      let (vs, rest2) ← decodeFields ls rest
      some (v :: vs, rest2)
termination_by ls _ => (sizeOf ls, 0)

/-- Decode an enum payload against the variant layout at the given
zero-based index, rejecting an out-of-range discriminant. -/
def decodeVariant : List Layout → Nat → List Nat → Option (Value × List Nat)
  | [], _, _ => none
  | l :: _, 0, bs => decodeL l bs
  | _ :: ls, n+1, bs => decodeVariant ls n bs
termination_by ls _ _ => (sizeOf ls, 0)

end

mutual

/-- Domain of a layout: which values are within the type's domain for
encoding (integer range bounds, byte ranges, `u32`-expressible lengths,
matching array and struct arities, in-range enum discriminants). -/
def valFits : Layout → Value → Bool
  | .boolL, .vBool _ => true
  | .uintL w, .vNat n => decide (n < 256 ^ w)
  | .sintL w, .vInt i =>
      decide (-((halfRange w : Nat) : Int) ≤ i) && decide (i < ((halfRange w : Nat) : Int))
  | .bytesL, .vBytes bs =>
      bs.all (fun b => decide (b < 256)) && decide (bs.length < 256 ^ 4)
  | .blobL n, .vBytes bs =>
      bs.all (fun b => decide (b < 256)) && decide (bs.length = n)
  | .vecL inner, .vList vs => fitsAll inner vs && decide (vs.length < 256 ^ 4)
  | .optionL _, .vNone => true
  | .optionL inner, .vSome v => valFits inner v
  | .arrayL inner n, .vList vs => fitsAll inner vs && decide (vs.length = n)
  | .structL ls, .vStruct vs => fitsFields ls vs
  | .rustEnumL variants, .vEnum tag pv => decide (tag < 256) && fitsVariant variants tag pv
  | _, _ => false
termination_by l _ => (sizeOf l, 0)

/-- Every element fits the inner layout. -/
def fitsAll : Layout → List Value → Bool
  | _, [] => true
  | l, v :: vs => valFits l v && fitsAll l vs
termination_by l vs => (sizeOf l, 1 + sizeOf vs)

/-- Struct values fit the field layouts pairwise (equal arity). -/
def fitsFields : List Layout → List Value → Bool
  | [], [] => true
  | l :: ls, v :: vs => valFits l v && fitsFields ls vs
  | _, _ => false
termination_by ls _ => (sizeOf ls, 0)

/-- The enum payload fits the variant layout at the given index (which must
be in range). -/
def fitsVariant : List Layout → Nat → Value → Bool
  | [], _, _ => false
  | l :: _, 0, pv => valFits l pv
  | _ :: ls, n+1, pv => fitsVariant ls n pv
termination_by ls _ _ => (sizeOf ls, 0)

end

/-- Modelled from the spec: UTF-8 bytes of one Unicode code point (the byte
encoding of the hashed preimage string). -/
def charUtf8 (c : Nat) : List Nat :=
  if c < 0x80 then [c]
  else if c < 0x800 then
    [0xc0 ||| (c >>> 6), 0x80 ||| (c &&& 0x3f)]
  else if c < 0x10000 then
    [0xe0 ||| (c >>> 12), 0x80 ||| ((c >>> 6) &&& 0x3f), 0x80 ||| (c &&& 0x3f)]
  else
    [0xf0 ||| (c >>> 18), 0x80 ||| ((c >>> 12) &&& 0x3f),
     0x80 ||| ((c >>> 6) &&& 0x3f), 0x80 ||| (c &&& 0x3f)]

/-- UTF-8 bytes of a string. -/
def strBytes (s : String) : List Nat :=
  (s.data.map (fun c => charUtf8 c.toNat)).flatten

/-- Modelled from the spec: the snake-case normalizer applied to the
instruction name (the external snake-case package): a lower-case letter is
kept, and an upper-case letter is lower-cased with an underscore inserted
when it follows a non-upper-case character.  Names already in lower case
(such as the spec examples) pass through unchanged. -/
def snakeChars : Option Char → List Char → List Char
  | _, [] => []
  | prev, c :: rest =>
    if c.isUpper then
      match prev with
      | some p =>
        if p.isUpper then c.toLower :: snakeChars (some c) rest
        else '_' :: c.toLower :: snakeChars (some c) rest
      | none => c.toLower :: snakeChars (some c) rest
    else c :: snakeChars (some c) rest

/-- Snake-case normalization of a whole string. -/
def snakeCase (s : String) : String := ⟨snakeChars none s.data⟩

/-- Big-endian bytes of `v`, exactly `w` bytes. -/
def natBE (w v : Nat) : List Nat := (natLE w v).reverse

/-- Modelled from the spec: the SHA-256 round constants (the external
js-sha256 digest). -/
def sha256K : List Nat :=
  [1116352408, 1899447441, 3049323471, 3921009573, 961987163, 1508970993,
   2453635748, 2870763221, 3624381080, 310598401, 607225278, 1426881987,
   1925078388, 2162078206, 2614888103, 3248222580, 3835390401, 4022224774,
   264347078, 604807628, 770255983, 1249150122, 1555081692, 1996064986,
   2554220882, 2821834349, 2952996808, 3210313671, 3336571891, 3584528711,
   113926993, 338241895, 666307205, 773529912, 1294757372, 1396182291,
   1695183700, 1986661051, 2177026350, 2456956037, 2730485921, 2820302411,
   3259730800, 3345764771, 3516065817, 3600352804, 4094571909, 275423344,
   430227734, 506948616, 659060556, 883997877, 958139571, 1322822218,
   1537002063, 1747873779, 1955562222, 2024104815, 2227730452, 2361852424,
   2428436474, 2756734187, 3204031479, 3329325298]

/-- Initial SHA-256 hash state. -/
def sha256H0 : List Nat :=
  [1779033703, 3144134277, 1013904242, 2773480762,
   1359893119, 2600822924, 528734635, 1541459225]

/-- Right rotation of a 32-bit word. -/
def rotr32 (x n : Nat) : Nat := ((x >>> n) ||| (x <<< (32 - n))) % 4294967296

/-- SHA-256 message padding: append `0x80`, zero bytes up to 56 mod 64,
then the 64-bit big-endian bit length. -/
def sha256Pad (msg : List Nat) : List Nat :=
  let r := (msg.length + 1) % 64
  let k := (56 + 64 - r) % 64
  msg ++ [0x80] ++ List.replicate k 0 ++ natBE 8 (8 * msg.length)

/-- Group bytes into big-endian 32-bit words. -/
def toWordsBE : List Nat → List Nat
  | b0 :: b1 :: b2 :: b3 :: rest => (((b0 * 256 + b1) * 256 + b2) * 256 + b3) :: toWordsBE rest
  | _ => []

/-- Group 32-bit words into 16-word blocks. -/
def toBlocks : List Nat → List (List Nat)
  | w0 :: w1 :: w2 :: w3 :: w4 :: w5 :: w6 :: w7 ::
    w8 :: w9 :: w10 :: w11 :: w12 :: w13 :: w14 :: w15 :: rest =>
      [w0, w1, w2, w3, w4, w5, w6, w7, w8, w9, w10, w11, w12, w13, w14, w15] :: toBlocks rest
  | _ => []

/-- Extend a 16-word block to the 64-word message schedule. -/
def sha256Extend (block : List Nat) : List Nat :=
  (List.range 48).foldl
    (fun w _ =>
      let i := w.length
      let w15 := w.getD (i - 15) 0
      let w2 := w.getD (i - 2) 0
      let s0 := (rotr32 w15 7) ^^^ (rotr32 w15 18) ^^^ (w15 >>> 3)
      let s1 := (rotr32 w2 17) ^^^ (rotr32 w2 19) ^^^ (w2 >>> 10)
      w ++ [(w.getD (i - 16) 0 + s0 + w.getD (i - 7) 0 + s1) % 4294967296])
    block

/-- One SHA-256 compression round on the 8-word working state. -/
def sha256Round (st : List Nat) (kw : Nat × Nat) : List Nat :=
  match st with
  | [a, b, c, d, e, f, g, h] =>
    let s1 := (rotr32 e 6) ^^^ (rotr32 e 11) ^^^ (rotr32 e 25)
    let ch := (e &&& f) ^^^ ((e ^^^ 0xffffffff) &&& g)
    let t1 := (h + s1 + ch + kw.1 + kw.2) % 4294967296
    let s0 := (rotr32 a 2) ^^^ (rotr32 a 13) ^^^ (rotr32 a 22)
    let maj := (a &&& b) ^^^ (a &&& c) ^^^ (b &&& c)
    let t2 := (s0 + maj) % 4294967296
    [(t1 + t2) % 4294967296, a, b, c, (d + t1) % 4294967296, e, f, g]
  | _ => st

/-- Process one block: run 64 rounds and add the result into the hash
state. -/
def sha256Block (h : List Nat) (block : List Nat) : List Nat :=
  let w := sha256Extend block
  let st := (sha256K.zip w).foldl sha256Round h
  (h.zip st).map (fun p => (p.1 + p.2) % 4294967296)

/-- Modelled from the spec: the full SHA-256 digest (32 bytes) of a byte
message, standing in for the external js-sha256 library. -/
def sha256 (msg : List Nat) : List Nat :=
  let blocks := toBlocks (toWordsBE (sha256Pad msg))
  ((blocks.foldl sha256Block sha256H0).map (natBE 4)).flatten

/-- `sighash(nameSpace, ixName)` from the source: snake-case the
instruction name, hash `nameSpace ++ ":" ++ name` with SHA-256 and keep
the first 8 bytes. -/
def sighash (nameSpace ixName : String) : List Nat :=
  let name := snakeCase ixName
  let preimage := nameSpace ++ ":" ++ name
  (sha256 (strBytes preimage)).take 8

/-- The on-chain IDL account record (`IdlProgramAccount`): a 32-byte
authority key and an opaque payload, both as byte lists. -/
structure IdlProgramAccount where
  authority : List Nat
  data : List Nat

/-- `IDL_ACCOUNT_LAYOUT` from the source:
`borsh.struct([borsh.publicKey("authority"), borsh.vecU8("data")])`. -/
def IDL_ACCOUNT_LAYOUT : Layout := .structL [.blobL 32, .bytesL]

/-- The positional value an `IdlProgramAccount` presents to the layout. -/
def accValue (acc : IdlProgramAccount) : Value :=
  .vStruct [.vBytes acc.authority, .vBytes acc.data]

/-- `encodeIdlAccount(acc)` from the source: encode through
`IDL_ACCOUNT_LAYOUT` into a `Buffer.alloc(1000)` scratch buffer (the
source marks the fixed size with a TODO) and slice off the written prefix.
An encoding longer than 1000 bytes cannot come back out of the fixed
buffer (the external write either throws a range error or truncates at
the buffer end, and `slice` clamps to 1000 bytes); the embedding reports
that case as an error. -/
def encodeIdlAccount (acc : IdlProgramAccount) : Except JsErr (List Nat) :=
  if (encodeL IDL_ACCOUNT_LAYOUT (accValue acc)).length ≤ 1000 then
    .ok (encodeL IDL_ACCOUNT_LAYOUT (accValue acc))
  else .error (.js "RangeError: encoding exceeds the 1000-byte scratch buffer")

/-- `decodeIdlAccount(data)` from the source: decode through
`IDL_ACCOUNT_LAYOUT` (trailing bytes are ignored, a short buffer is
rejected). -/
def decodeIdlAccount (bs : List Nat) : Option IdlProgramAccount :=
  match decodeL IDL_ACCOUNT_LAYOUT bs with
  | some (.vStruct [.vBytes a, .vBytes d], _) => some ⟨a, d⟩
  | _ => none

theorem natLE_length : ∀ (w v : Nat), (natLE w v).length = w
  | 0, _ => rfl
  | w+1, v => by simp [natLE, natLE_length w]

theorem leNat_natLE : ∀ (w v : Nat), leNat (natLE w v) = v % 256 ^ w
  | 0, v => by simp [natLE, leNat, Nat.mod_one]
  | w+1, v => by
    simp only [natLE, leNat, leNat_natLE w]
    rw [pow_succ, Nat.mul_comm (256 ^ w) 256, Nat.mod_mul]

theorem leNat_natLE_of_lt {w v : Nat} (h : v < 256 ^ w) : leNat (natLE w v) = v := by
  rw [leNat_natLE, Nat.mod_eq_of_lt h]

theorem takeExact_append {n : Nat} (l rest : List Nat) (h : l.length = n) :
    takeExact n (l ++ rest) = some (l, rest) := by
  have hle : n ≤ (l ++ rest).length := by
    simp only [List.length_append]
    omega
  simp only [takeExact]
  rw [if_pos hle, List.take_left' h, List.drop_left' h]

theorem halfRange_double {w : Nat} (h : 0 < halfRange w) : 256 ^ w = 2 * halfRange w := by
  have hw : w ≠ 0 := by
    intro h0
    rw [h0] at h
    simp [halfRange] at h
  have hdvd : 2 ∣ 256 ^ w := dvd_pow (by norm_num) hw
  unfold halfRange
  omega

/-- Decoding the two's-complement little-endian bytes of an in-range
integer recovers it. -/
theorem sintVal_roundtrip (w : Nat) (i : Int)
    (h1 : -((halfRange w : Nat) : Int) ≤ i) (h2 : i < ((halfRange w : Nat) : Int)) :
    (if 2 * leNat (natLE w (Int.toNat (i % ((256 ^ w : Nat) : Int)))) < 256 ^ w
       then ((leNat (natLE w (Int.toNat (i % ((256 ^ w : Nat) : Int)))) : Nat) : Int)
       else ((leNat (natLE w (Int.toNat (i % ((256 ^ w : Nat) : Int)))) : Nat) : Int)
            - ((256 ^ w : Nat) : Int)) = i := by
  have hH : 0 < halfRange w := by
    rcases Nat.eq_zero_or_pos (halfRange w) with h0 | h0
    · rw [h0] at h1 h2
      simp at h1 h2
      omega
    · exact h0
  have hNe : 256 ^ w = 2 * halfRange w := halfRange_double hH
  have hN0 : (0 : Int) < ((256 ^ w : Nat) : Int) := by
    exact_mod_cast Nat.pos_pow_of_pos w (by norm_num)
  have hmod0 : 0 ≤ i % ((256 ^ w : Nat) : Int) := Int.emod_nonneg i (by omega)
  have hmodN : i % ((256 ^ w : Nat) : Int) < ((256 ^ w : Nat) : Int) :=
    Int.emod_lt_of_pos i hN0
  have hlt : Int.toNat (i % ((256 ^ w : Nat) : Int)) < 256 ^ w := by omega
  rw [leNat_natLE_of_lt hlt]
  rcases le_or_lt 0 i with hpos | hneg
  · have heq : i % ((256 ^ w : Nat) : Int) = i := Int.emod_eq_of_lt hpos (by omega)
    rw [heq]
    split <;> omega
  · have heq : i % ((256 ^ w : Nat) : Int) = i + ((256 ^ w : Nat) : Int) := by
      have hstep : (i + ((256 ^ w : Nat) : Int) * 1) % ((256 ^ w : Nat) : Int) =
          i % ((256 ^ w : Nat) : Int) := Int.add_mul_emod_self_left i _ 1
      rw [Int.mul_one] at hstep
      rw [← hstep]
      exact Int.emod_eq_of_lt (by omega) (by omega)
    rw [heq]
    split <;> omega

mutual

/-- Encoding a fitting value through a layout and decoding the bytes back
(with any byte suffix) returns the original value and the suffix: the
round-trip of the modelled borsh codec. -/
theorem encode_decode (l : Layout) (v : Value) (rest : List Nat)
    (h : valFits l v = true) :
    decodeL l (encodeL l v ++ rest) = some (v, rest) := by
  cases l with
  | boolL =>
    cases v <;> simp [valFits] at h
    case vBool b => cases b <;> simp [encodeL, decodeL]
  | uintL w =>
    cases v <;> simp [valFits] at h
    case vNat n =>
      simp only [encodeL, decodeL]
      rw [takeExact_append _ _ (natLE_length w n)]
      simp [leNat_natLE_of_lt h]
  | sintL w =>
    cases v <;> simp [valFits] at h
    case vInt i =>
      simp only [encodeL, decodeL]
      rw [takeExact_append _ _ (natLE_length w _)]
      simp only [Option.bind_eq_bind, Option.some_bind]
      rw [sintVal_roundtrip w i h.1 h.2]
  | bytesL =>
    cases v <;> simp [valFits] at h
    case vBytes bs =>
      simp only [encodeL, decodeL, List.append_assoc]
      rw [takeExact_append _ _ (natLE_length 4 _)]
      simp only [Option.bind_eq_bind, Option.some_bind]
      rw [leNat_natLE_of_lt h.2, takeExact_append _ _ rfl]
      rfl
  | blobL n =>
    cases v <;> simp [valFits] at h
    case vBytes bs =>
      simp only [encodeL, decodeL]
      rw [takeExact_append _ _ h.2]
      rfl
  | vecL inner =>
    cases v <;> simp [valFits] at h
    case vList vs =>
      simp only [encodeL, decodeL, List.append_assoc]
      rw [takeExact_append _ _ (natLE_length 4 _)]
      simp only [Option.bind_eq_bind, Option.some_bind]
      rw [leNat_natLE_of_lt h.2, encodeAll_decodeMany inner vs rest h.1]
      rfl
  | optionL inner =>
    cases v <;> simp [valFits] at h
    case vNone => simp [encodeL, decodeL]
    case vSome v' =>
      simp only [encodeL, decodeL, List.cons_append]
      simp [encode_decode inner v' rest h]
  | arrayL inner n =>
    cases v <;> simp [valFits] at h
    case vList vs =>
      simp only [encodeL, decodeL]
      rw [← h.2, encodeAll_decodeMany inner vs rest h.1]
      rfl
  | structL ls =>
    cases v <;> simp [valFits] at h
    case vStruct vs =>
      simp only [encodeL, decodeL]
      rw [encodeFields_decodeFields ls vs rest h]
      rfl
  | rustEnumL variants =>
    cases v <;> simp [valFits] at h
    case vEnum tag pv =>
      have htag : tag % 256 = tag := Nat.mod_eq_of_lt h.1
      simp only [encodeL, natLE, htag, List.cons_append, List.nil_append, decodeL]
      rw [encodeVariant_decodeVariant variants tag pv rest h.2]
      rfl
termination_by (sizeOf l, 0)

/-- Round-trip for a homogeneous sequence of values (`Vec` / `Array`
elements). -/
theorem encodeAll_decodeMany (l : Layout) (vs : List Value) (rest : List Nat)
    (h : fitsAll l vs = true) :
    decodeMany l vs.length (encodeAll l vs ++ rest) = some (vs, rest) := by
  cases vs with
  | nil => simp [encodeAll, decodeMany]
  | cons v vs' =>
    simp [fitsAll] at h
    simp only [encodeAll, List.length_cons, decodeMany, List.append_assoc]
    rw [encode_decode l v _ h.1]
    simp only [Option.bind_eq_bind, Option.some_bind]
    rw [encodeAll_decodeMany l vs' rest h.2]
    rfl
termination_by (sizeOf l, 1 + sizeOf vs)

/-- Round-trip for struct fields. -/
theorem encodeFields_decodeFields (ls : List Layout) (vs : List Value) (rest : List Nat)
    (h : fitsFields ls vs = true) :
    decodeFields ls (encodeFields ls vs ++ rest) = some (vs, rest) := by
  cases ls with
  | nil =>
    cases vs with
    | nil => simp [encodeFields, decodeFields]
    | cons v vs' => simp [fitsFields] at h
  | cons l ls' =>
    cases vs with
    | nil => simp [fitsFields] at h
    | cons v vs' =>
      simp [fitsFields] at h
      simp only [encodeFields, decodeFields, List.append_assoc]
      rw [encode_decode l v _ h.1]
      simp only [Option.bind_eq_bind, Option.some_bind]
      rw [encodeFields_decodeFields ls' vs' rest h.2]
      rfl
termination_by (sizeOf ls, 0)

/-- Round-trip for the enum payload at a given variant index. -/
theorem encodeVariant_decodeVariant (ls : List Layout) (tag : Nat) (pv : Value)
    (rest : List Nat) (h : fitsVariant ls tag pv = true) :
    decodeVariant ls tag (encodeVariant ls tag pv ++ rest) = some (pv, rest) := by
  cases ls with
  | nil => simp [fitsVariant] at h
  | cons l ls' =>
    cases tag with
    | zero =>
      simp [fitsVariant] at h
      simp only [encodeVariant, decodeVariant]
      exact encode_decode l pv rest h
    | succ n =>
      simp [fitsVariant] at h
      simp only [encodeVariant, decodeVariant]
      exact encodeVariant_decodeVariant ls' n pv rest h
termination_by (sizeOf ls, 0)

end


theorem foldl_add_eq_sum : ∀ (ss : List Nat) (s : Nat), ss.foldl (· + ·) s = s + ss.sum
  | [], s => by simp
  | b :: bs, s => by
    simp only [List.foldl_cons, List.sum_cons, foldl_add_eq_sum bs (s + b)]
    omega

theorem reduceAdd_cons (s : Nat) (ss : List Nat) :
    reduceAdd (s :: ss) = .ok ((s :: ss).sum) := by
  simp [reduceAdd, foldl_add_eq_sum, List.sum_cons]

theorem encodeVariant_get : ∀ (vls : List Layout) (i : Nat) (li : Layout) (pv : Value),
    vls[i]? = some li → encodeVariant vls i pv = encodeL li pv
  | [], i, li, pv => by simp
  | l :: ls, 0, li, pv => by
    intro h
    simp only [List.getElem?_cons_zero, Option.some_inj] at h
    subst h
    simp [encodeVariant]
  | l :: ls, i+1, li, pv => by
    intro h
    simp only [List.getElem?_cons_succ] at h
    simp only [encodeVariant]
    exact encodeVariant_get ls i li pv h

theorem variantLayoutsM_get_nofields :
    ∀ (vs : List IdlEnumVariant) (fuel : Nat) (ts : List IdlTypeDef)
      (vls : List Layout) (i : Nat) (vn : String),
      IdlCoder.variantLayoutsM fuel vs ts = .ok vls → vs[i]? = some ⟨vn, none⟩ →
      vls[i]? = some (.structL [])
  | [], fuel, ts, vls, i, vn => by
    intro _ hget
    simp at hget
  | v' :: rest, 0, ts, vls, i, vn => by
    intro hok _
    cases hok
  | v' :: rest, fuel+1, ts, vls, i, vn => by
    intro hok hget
    cases hres : IdlCoder.variantLayoutM fuel v' ts with
    | error e =>
      simp only [IdlCoder.variantLayoutsM, hres, bind, Except.bind] at hok
      cases hok
    | ok l =>
      cases hrest : IdlCoder.variantLayoutsM fuel rest ts with
      | error e =>
        simp only [IdlCoder.variantLayoutsM, hres, hrest, bind, Except.bind] at hok
        cases hok
      | ok ls =>
        simp only [IdlCoder.variantLayoutsM, hres, hrest, bind, Except.bind,
          Except.ok.injEq] at hok
        subst hok
        cases i with
        | zero =>
          simp only [List.getElem?_cons_zero, Option.some_inj] at hget
          subst hget
          cases fuel with
          | zero => cases hres
          | succ f =>
            simp only [IdlCoder.variantLayoutM, Except.ok.injEq] at hres
            simp [← hres]
        | succ i' =>
          simp only [List.getElem?_cons_succ] at hget ⊢
          exact variantLayoutsM_get_nofields rest fuel ts ls i' vn hrest hget

theorem variantLayoutsM_error_of_mem :
    ∀ (vs : List IdlEnumVariant) (fuel : Nat) (ts : List IdlTypeDef) (v : IdlEnumVariant),
      v ∈ vs → (∀ f, ∃ e, IdlCoder.variantLayoutM f v ts = .error e) →
      ∃ e, IdlCoder.variantLayoutsM fuel vs ts = .error e
  | [], _, _, _ => by
    intro hmem _
    cases hmem
  | v' :: rest, 0, ts, v => by
    intro _ _
    exact ⟨.outOfFuel, rfl⟩
  | v' :: rest, fuel+1, ts, v => by
    intro hmem herr
    rcases List.mem_cons.mp hmem with heq | hmem'
    · obtain ⟨e, he⟩ := herr fuel
      subst heq
      exact ⟨e, by simp only [IdlCoder.variantLayoutsM, he, bind, Except.bind]⟩
    · cases hres : IdlCoder.variantLayoutM fuel v' ts with
      | error e1 =>
        exact ⟨e1, by simp only [IdlCoder.variantLayoutsM, hres, bind, Except.bind]⟩
      | ok l =>
        obtain ⟨e2, he2⟩ := variantLayoutsM_error_of_mem rest fuel ts v hmem' herr
        exact ⟨e2, by simp only [IdlCoder.variantLayoutsM, hres, he2, bind, Except.bind]⟩

theorem variantSizesM_error_of_mem :
    ∀ (vs : List IdlEnumVariant) (fuel : Nat) (idl : Idl) (v : IdlEnumVariant),
      v ∈ vs → (∀ f, ∃ e, variantSizeM f idl v = .error e) →
      ∃ e, variantSizesM fuel idl vs = .error e
  | [], _, _, _ => by
    intro hmem _
    cases hmem
  | v' :: rest, 0, idl, v => by
    intro _ _
    exact ⟨.outOfFuel, rfl⟩
  | v' :: rest, fuel+1, idl, v => by
    intro hmem herr
    rcases List.mem_cons.mp hmem with heq | hmem'
    · obtain ⟨e, he⟩ := herr fuel
      subst heq
      exact ⟨e, by simp only [variantSizesM, he, bind, Except.bind]⟩
    · cases hres : variantSizeM fuel idl v' with
      | error e1 =>
        exact ⟨e1, by simp only [variantSizesM, hres, bind, Except.bind]⟩
      | ok s =>
        obtain ⟨e2, he2⟩ := variantSizesM_error_of_mem rest fuel idl v hmem' herr
        exact ⟨e2, by simp only [variantSizesM, hres, he2, bind, Except.bind]⟩

theorem variantLayoutM_tuple_error (fuel : Nat) (v : IdlEnumVariant) (ts : List IdlTypeDef)
    (t : IdlType) (tts : List IdlType) (hf : v.fields = some (.tuple (t :: tts))) :
    ∃ e, IdlCoder.variantLayoutM fuel v ts = .error e := by
  match fuel with
  | 0 => exact ⟨.outOfFuel, rfl⟩
  | fuel+1 =>
    match fuel with
    | 0 =>
      exact ⟨.outOfFuel, by
        simp only [IdlCoder.variantLayoutM, hf, IdlCoder.tupleLayoutsM, bind, Except.bind]⟩
    | f+1 =>
      exact ⟨.js "Tuple enum variants not yet implemented.", by
        simp only [IdlCoder.variantLayoutM, hf, IdlCoder.tupleLayoutsM, bind, Except.bind]⟩

theorem variantSizeM_tuple_error (fuel : Nat) (idl : Idl) (v : IdlEnumVariant)
    (t : IdlType) (tts : List IdlType) (hf : v.fields = some (.tuple (t :: tts))) :
    ∃ e, variantSizeM fuel idl v = .error e := by
  match fuel with
  | 0 => exact ⟨.outOfFuel, rfl⟩
  | fuel+1 =>
    match fuel with
    | 0 =>
      exact ⟨.outOfFuel, by
        simp only [variantSizeM, hf, tupleSizesM, bind, Except.bind]⟩
    | f+1 =>
      exact ⟨.js "Tuple enum variants not yet implemented.", by
        simp only [variantSizeM, hf, tupleSizesM, bind, Except.bind]⟩

theorem variantSizeM_emptyfields_error (fuel : Nat) (idl : Idl) (v : IdlEnumVariant)
    (hf : v.fields = some (.named []) ∨ v.fields = some (.tuple [])) :
    ∃ e, variantSizeM fuel idl v = .error e := by
  match fuel with
  | 0 => exact ⟨.outOfFuel, rfl⟩
  | fuel+1 =>
    match fuel with
    | 0 =>
      rcases hf with hf | hf
      · exact ⟨.outOfFuel, by simp only [variantSizeM, hf, fieldSizesM, bind, Except.bind]⟩
      · exact ⟨.outOfFuel, by simp only [variantSizeM, hf, tupleSizesM, bind, Except.bind]⟩
    | f+1 =>
      rcases hf with hf | hf
      · exact ⟨.js "Reduce of empty array with no initial value", by
          simp only [variantSizeM, hf, fieldSizesM, bind, Except.bind, reduceAdd]⟩
      · exact ⟨.js "Reduce of empty array with no initial value", by
          simp only [variantSizeM, hf, tupleSizesM, bind, Except.bind, reduceAdd]⟩

/-- C1: every layout that IdlCoder.fieldLayout actually returns round-trips
every value in its domain (decoding the encoding, with any byte suffix,
recovers the value); but the claim quantifies over every supported
IdlType, and for Vec the compiler never returns a layout at all — it reads
the non-existent lowercase vec property of the type object and throws a
TypeError, falsifying the universal claim (the second conjunct evaluates
the compiler at the failing input Vec(U8)). -/
theorem C1_round_trip :
    (∀ (fuel : Nat) (fty : Option IdlType) (types : Option (List IdlTypeDef))
        (L : Layout) (v : Value) (rest : List Nat),
        IdlCoder.fieldLayout fuel fty types = .ok L → valFits L v = true →
        decodeL L (encodeL L v ++ rest) = some (v, rest))
  ∧ IdlCoder.fieldLayout 3 (some (.vec .u8)) none =
      .error (.js "TypeError: cannot use in operator on undefined") := by
  constructor
  · intro fuel fty types L v rest _ hfit
    exact encode_decode L v rest hfit
  · rfl

/-- C1 witness: the compiled U16 layout round-trips the value 300 with a
trailing suffix. -/
theorem C1_round_trip_witness :
    decodeL (.uintL 2) (encodeL (.uintL 2) (.vNat 300) ++ [9, 9]) =
      some (.vNat 300, [9, 9]) :=
  C1_round_trip.1 3 (some .u16) none (.uintL 2) (.vNat 300) [9, 9] rfl
    (by simp [valFits])

/-- C2: fieldLayout compiles Option(inner) to a one-byte presence flag
conditionally followed by the compiled inner layout, and Array(inner, n)
to exactly n consecutive compiled inner layouts with no length prefix
(the encode conjuncts spell out the flag byte and the unprefixed
concatenation); but for Vec(inner) the source passes the non-existent
lowercase vec property instead of the inner type, so compiling any Vec
throws a TypeError instead of building the length-prefixed sequence. -/
theorem C2_composite_layouts :
    (∀ (fuel : Nat) (ty : IdlType) (types : Option (List IdlTypeDef)) (L : Layout),
        IdlCoder.fieldLayout fuel (some ty) types = .ok L →
        IdlCoder.fieldLayout (fuel+1) (some (.option ty)) types = .ok (.optionL L)
      ∧ ∀ n, IdlCoder.fieldLayout (fuel+1) (some (.array ty n)) types = .ok (.arrayL L n))
  ∧ (∀ (fuel : Nat) (ty : IdlType) (types : Option (List IdlTypeDef)),
        IdlCoder.fieldLayout (fuel+2) (some (.vec ty)) types =
          .error (.js "TypeError: cannot use in operator on undefined"))
  ∧ (∀ L : Layout, encodeL (.optionL L) .vNone = [0])
  ∧ (∀ (L : Layout) (v : Value), encodeL (.optionL L) (.vSome v) = 1 :: encodeL L v)
  ∧ (∀ (L : Layout) (n : Nat) (vs : List Value),
        encodeL (.arrayL L n) (.vList vs) = encodeAll L vs)
  ∧ (∀ (L : Layout) (v : Value) (vs : List Value),
        encodeAll L (v :: vs) = encodeL L v ++ encodeAll L vs) := by
  refine ⟨?_, ?_, ?_, ?_, ?_, ?_⟩
  · intro fuel ty types L h
    constructor
    · simp only [IdlCoder.fieldLayout, h, bind, Except.bind]
    · intro n
      simp only [IdlCoder.fieldLayout, h, bind, Except.bind]
  · intro fuel ty types
    simp only [IdlCoder.fieldLayout, bind, Except.bind]
  · intro L
    simp [encodeL]
  · intro L v
    simp [encodeL]
  · intro L n vs
    simp [encodeL]
  · intro L v vs
    simp [encodeAll]

/-- C2 witness: Option(U8) and Array(U8, 5) compile to the flag and
fixed-repetition layouts over the compiled U8 layout. -/
theorem C2_composite_layouts_witness :
    IdlCoder.fieldLayout 3 (some (.option .u8)) none = .ok (.optionL (.uintL 1))
  ∧ IdlCoder.fieldLayout 3 (some (.array .u8 5)) none = .ok (.arrayL (.uintL 1) 5) :=
  ⟨(C2_composite_layouts.1 2 .u8 none (.uintL 1) rfl).1,
   (C2_composite_layouts.1 2 .u8 none (.uintL 1) rfl).2 5⟩

/-- C3: typeDefLayout compiles an enum to a tagged union: encoding the
variant at zero-based declaration index i produces the single discriminant
byte i followed by the variant payload, the payload is encoded through the
variant layout at index i, a variant with named fields compiles to the
anonymous struct of its compiled fields, and a variant without fields
compiles to the empty struct, which encodes zero bytes. -/
theorem C3_enum_discriminant (fuel : Nat) (nm : String)
    (variants : List IdlEnumVariant) (ts : List IdlTypeDef) (vls : List Layout)
    (hok : IdlCoder.variantLayoutsM fuel variants ts = .ok vls) :
    IdlCoder.typeDefLayout (fuel+1) ⟨nm, .enum variants⟩ ts = .ok (.rustEnumL vls)
  ∧ (∀ (i : Nat) (pv : Value), i < 256 →
       encodeL (.rustEnumL vls) (.vEnum i pv) = i :: encodeVariant vls i pv)
  ∧ (∀ (i : Nat) (li : Layout) (pv : Value), vls[i]? = some li →
       encodeVariant vls i pv = encodeL li pv)
  ∧ (∀ (i : Nat) (vn : String), variants[i]? = some ⟨vn, none⟩ →
       vls[i]? = some (.structL []) ∧ encodeVariant vls i (.vStruct []) = [])
  ∧ (∀ (fuel2 : Nat) (vn2 : String) (fs : List IdlField) (ls : List Layout)
        (ts2 : List IdlTypeDef),
       IdlCoder.fieldLayoutsM fuel2 fs ts2 = .ok ls →
       IdlCoder.variantLayoutM (fuel2+1) ⟨vn2, some (.named fs)⟩ ts2 =
         .ok (.structL ls)) := by
  refine ⟨?_, ?_, ?_, ?_, ?_⟩
  · simp only [IdlCoder.typeDefLayout, hok, bind, Except.bind]
  · intro i pv hi
    simp [encodeL, natLE, Nat.mod_eq_of_lt hi]
  · intro i li pv hget
    exact encodeVariant_get vls i li pv hget
  · intro i vn hv
    have h1 := variantLayoutsM_get_nofields variants fuel ts vls i vn hok hv
    refine ⟨h1, ?_⟩
    rw [encodeVariant_get vls i _ _ h1]
    simp [encodeL, encodeFields]
  · intro fuel2 vn2 fs ls ts2 hfs
    simp only [IdlCoder.variantLayoutM, hfs, bind, Except.bind]

/-- C3 witness: for the enum with variants A, B, C in that order (all
field-less), encoding a B value produces exactly the leading discriminant
byte 1 and nothing else. -/
theorem C3_enum_discriminant_witness :
    IdlCoder.typeDefLayout 10 ⟨"E", .enum [⟨"A", none⟩, ⟨"B", none⟩, ⟨"C", none⟩]⟩ [] =
      .ok (.rustEnumL [.structL [], .structL [], .structL []])
  ∧ encodeL (.rustEnumL [.structL [], .structL [], .structL []])
      (.vEnum 1 (.vStruct [])) = [1] := by
  have h := C3_enum_discriminant 9 "E" [⟨"A", none⟩, ⟨"B", none⟩, ⟨"C", none⟩] []
      [.structL [], .structL [], .structL []] rfl
  refine ⟨h.1, ?_⟩
  rw [h.2.1 1 (.vStruct []) (by decide), (h.2.2.2.1 1 "B" rfl).2]

/-- C4: sighash is the first 8 bytes of SHA-256 of the preimage
namespace ++ ":" ++ snake-cased name, it is deterministic (a pure function
of its two arguments), and at the concrete spec inputs the discriminators
of initialize and close under the myapp namespace differ. -/
theorem C4_sighash :
    (∀ ns nm : String,
        sighash ns nm = (sha256 (strBytes (ns ++ ":" ++ snakeCase nm))).take 8)
  ∧ (∀ ns nm : String, sighash ns nm = sighash ns nm)
  ∧ sighash "myapp" "initialize" ≠ sighash "myapp" "close" :=
  ⟨fun _ _ => rfl, fun _ _ => rfl, by decide⟩

/-- C5: accountSize of an enum is the maximum over the per-variant sizes
plus 1 for the discriminant byte, where a variant with absent fields sizes
to 0 and a variant with (non-empty) named fields sizes to the sum of its
field sizes as computed by typeSize. -/
theorem C5_enum_account_size :
    (∀ (fuel : Nat) (idl : Idl) (nm : String) (variants : List IdlEnumVariant)
        (s0 : Nat) (srest : List Nat),
        variantSizesM fuel idl variants = .ok (s0 :: srest) →
        accountSize (fuel+1) idl ⟨nm, .enum variants⟩ =
          .ok ((s0 :: srest).foldr Nat.max 0 + 1))
  ∧ (∀ (fuel : Nat) (idl : Idl) (vn : String),
        variantSizeM (fuel+1) idl ⟨vn, none⟩ = .ok 0)
  ∧ (∀ (fuel : Nat) (idl : Idl) (vn : String) (f : IdlField) (fs : List IdlField)
        (s : Nat) (srest : List Nat),
        fieldSizesM fuel idl (f :: fs) = .ok (s :: srest) →
        variantSizeM (fuel+1) idl ⟨vn, some (.named (f :: fs))⟩ =
          .ok ((s :: srest).sum))
  ∧ (∀ (fuel : Nat) (idl : Idl) (f : IdlField) (fs : List IdlField) (s : Nat)
        (sizes : List Nat),
        typeSize fuel idl f.type = .ok s → fieldSizesM fuel idl fs = .ok sizes →
        fieldSizesM (fuel+1) idl (f :: fs) = .ok (s :: sizes)) := by
  refine ⟨?_, ?_, ?_, ?_⟩
  · intro fuel idl nm variants s0 srest h
    simp only [accountSize, h, jsMax, bind, Except.bind]
  · intro fuel idl vn
    simp [variantSizeM]
  · intro fuel idl vn f fs s srest h
    simp only [variantSizeM, h, bind, Except.bind, reduceAdd_cons]
  · intro fuel idl f fs s sizes h1 h2
    simp only [fieldSizesM, h1, h2, bind, Except.bind]

/-- C5 witness: an enum with variant A of one U8 field and variant B of one
U64 field sizes to 1 + max(1, 8) = 9. -/
theorem C5_enum_account_size_witness :
    accountSize 10 ⟨"v", "n", none, none⟩
      ⟨"T", .enum [⟨"A", some (.named [⟨"x", .u8⟩])⟩,
                   ⟨"B", some (.named [⟨"y", .u64⟩])⟩]⟩ = .ok 9 :=
  C5_enum_account_size.1 9 ⟨"v", "n", none, none⟩ "T"
    [⟨"A", some (.named [⟨"x", .u8⟩])⟩, ⟨"B", some (.named [⟨"y", .u64⟩])⟩] 1 [8] rfl

/-- C6: typeSize returns the fixed primitive widths, the 1-byte placeholder
for Bytes, String and Vec, 1 plus the inner size for Option and inner size
times the fixed length for Array; accountSize of a struct is the sum of
its field sizes in declared order, and an empty struct sizes to 0. -/
theorem C6_type_size :
    (∀ (fuel : Nat) (idl : Idl),
        typeSize (fuel+1) idl .bool = .ok 1 ∧
        typeSize (fuel+1) idl .u8 = .ok 1 ∧
        typeSize (fuel+1) idl .i8 = .ok 1 ∧
        typeSize (fuel+1) idl .u16 = .ok 2 ∧
        typeSize (fuel+1) idl .i16 = .ok 2 ∧
        typeSize (fuel+1) idl .u32 = .ok 4 ∧
        typeSize (fuel+1) idl .i32 = .ok 4 ∧
        typeSize (fuel+1) idl .u64 = .ok 8 ∧
        typeSize (fuel+1) idl .i64 = .ok 8 ∧
        typeSize (fuel+1) idl .u128 = .ok 16 ∧
        typeSize (fuel+1) idl .i128 = .ok 16 ∧
        typeSize (fuel+1) idl .publicKey = .ok 32 ∧
        typeSize (fuel+1) idl .bytes = .ok 1 ∧
        typeSize (fuel+1) idl .string = .ok 1)
  ∧ (∀ (fuel : Nat) (idl : Idl) (inner : IdlType),
        typeSize (fuel+1) idl (.vec inner) = .ok 1)
  ∧ (∀ (fuel : Nat) (idl : Idl) (inner : IdlType) (s : Nat),
        typeSize fuel idl inner = .ok s →
        typeSize (fuel+1) idl (.option inner) = .ok (1 + s))
  ∧ (∀ (fuel : Nat) (idl : Idl) (inner : IdlType) (n s : Nat),
        typeSize fuel idl inner = .ok s →
        typeSize (fuel+1) idl (.array inner n) = .ok (s * n))
  ∧ (∀ (fuel : Nat) (idl : Idl) (nm : String) (fields : List IdlField)
        (sizes : List Nat),
        fieldSizesM fuel idl fields = .ok sizes →
        accountSize (fuel+1) idl ⟨nm, .struct fields⟩ = .ok sizes.sum)
  ∧ (∀ (fuel : Nat) (idl : Idl) (nm : String),
        accountSize (fuel+2) idl ⟨nm, .struct []⟩ = .ok 0) := by
  refine ⟨?_, ?_, ?_, ?_, ?_, ?_⟩
  · intro fuel idl
    exact ⟨rfl, rfl, rfl, rfl, rfl, rfl, rfl, rfl, rfl, rfl, rfl, rfl, rfl, rfl⟩
  · intro fuel idl inner
    rfl
  · intro fuel idl inner s h
    simp only [typeSize, h, bind, Except.bind]
  · intro fuel idl inner n s h
    simp only [typeSize, h, bind, Except.bind]
  · intro fuel idl nm fields sizes h
    simp only [accountSize, h, bind, Except.bind, Except.ok.injEq]
    rw [foldl_add_eq_sum]
    omega
  · intro fuel idl nm
    rfl

/-- C6 witness: a struct with one U32 field and one String field sizes to
4 + 1 = 5 (the String contributes the 1-byte placeholder). -/
theorem C6_type_size_witness :
    accountSize 4 ⟨"v", "n", none, none⟩
      ⟨"S", .struct [⟨"a", .u32⟩, ⟨"b", .string⟩]⟩ = .ok 5 :=
  C6_type_size.2.2.2.2.1 3 ⟨"v", "n", none, none⟩ "S"
    [⟨"a", .u32⟩, ⟨"b", .string⟩] [4, 1] rfl

/-- C7: a Defined(name) reference matching zero or more than one entry of
the supplied type-definition list makes both the layout compiler and the
size estimator raise the IdlError Type not found instead of producing a
layout or a size. -/
theorem C7_type_not_found (fuel : Nat) (nm : String) (types : List IdlTypeDef)
    (idl : Idl) :
    ((types.filter (fun t => t.name == nm)).length ≠ 1 →
        IdlCoder.fieldLayout (fuel+1) (some (.defined nm)) (some types) =
          .error (.idl ("Type not found: " ++ nm)))
  ∧ (((idl.types.getD []).filter (fun t => t.name == nm)).length ≠ 1 →
        typeSize (fuel+1) idl (.defined nm) =
          .error (.idl ("Type not found: " ++ nm))) := by
  constructor
  · intro hlen
    cases hf : types.filter (fun t => t.name == nm) with
    | nil => simp [IdlCoder.fieldLayout, hf]
    | cons t1 rest =>
      cases rest with
      | nil => exact absurd (by rw [hf]; rfl) hlen
      | cons t2 rest2 => simp [IdlCoder.fieldLayout, hf]
  · intro hlen
    cases hf : (idl.types.getD []).filter (fun t => t.name == nm) with
    | nil => simp [typeSize, hf]
    | cons t1 rest =>
      cases rest with
      | nil => exact absurd (by rw [hf]; rfl) hlen
      | cons t2 rest2 => simp [typeSize, hf]

/-- C7 witness: Defined Ghost against a schema with no type definitions
raises Type not found in both the compiler and the estimator. -/
theorem C7_type_not_found_witness :
    IdlCoder.fieldLayout 1 (some (.defined "Ghost")) (some []) =
      .error (.idl ("Type not found: " ++ "Ghost"))
  ∧ typeSize 1 ⟨"v", "n", none, none⟩ (.defined "Ghost") =
      .error (.idl ("Type not found: " ++ "Ghost")) :=
  ⟨(C7_type_not_found 0 "Ghost" [] ⟨"v", "n", none, none⟩).1 (by decide),
   (C7_type_not_found 0 "Ghost" [] ⟨"v", "n", none, none⟩).2 (by decide)⟩

/-- C8: an enum containing a variant with a non-empty tuple of unnamed
fields makes both typeDefLayout and accountSize raise an error instead of
producing any layout, bytes or size. -/
theorem C8_tuple_rejected (fuel : Nat) (idl : Idl) (nm : String)
    (variants : List IdlEnumVariant) (types : List IdlTypeDef)
    (v : IdlEnumVariant) (t : IdlType) (tts : List IdlType)
    (hmem : v ∈ variants) (hf : v.fields = some (.tuple (t :: tts))) :
    (∃ e, IdlCoder.typeDefLayout (fuel+1) ⟨nm, .enum variants⟩ types = .error e)
  ∧ (∃ e, accountSize (fuel+1) idl ⟨nm, .enum variants⟩ = .error e) := by
  constructor
  · obtain ⟨e, he⟩ := variantLayoutsM_error_of_mem variants fuel types v hmem
      (fun f => variantLayoutM_tuple_error f v types t tts hf)
    exact ⟨e, by simp only [IdlCoder.typeDefLayout, he, bind, Except.bind]⟩
  · obtain ⟨e, he⟩ := variantSizesM_error_of_mem variants fuel idl v hmem
      (fun f => variantSizeM_tuple_error f idl v t tts hf)
    exact ⟨e, by simp only [accountSize, he, bind, Except.bind]⟩

/-- C8 witness: an enum whose single variant carries the unnamed tuple
field U8 is rejected by both the layout compiler and the size
estimator. -/
theorem C8_tuple_rejected_witness :
    (∃ e, IdlCoder.typeDefLayout 5 ⟨"E", .enum [⟨"A", some (.tuple [.u8])⟩]⟩ [] =
        .error e)
  ∧ (∃ e, accountSize 5 ⟨"v", "n", none, none⟩
        ⟨"E", .enum [⟨"A", some (.tuple [.u8])⟩]⟩ = .error e) :=
  C8_tuple_rejected 4 ⟨"v", "n", none, none⟩ "E" [⟨"A", some (.tuple [.u8])⟩] []
    ⟨"A", some (.tuple [.u8])⟩ .u8 [] (List.mem_singleton.mpr rfl) rfl

/-- C9 (amended): encodeIdlAccount returns exactly the schema-account
layout bytes — the 32-byte authority, a 4-byte little-endian payload
length, then the payload — so the output has length 36 + data.length and
decodeIdlAccount recovers the original record, provided the encoding fits
the fixed 1000-byte scratch buffer (data.length ≤ 964; the unamended
claim fails beyond that bound, see the counterexample). -/
theorem C9_idl_account_codec (acc : IdlProgramAccount)
    (hlen : acc.authority.length = 32)
    (hab : acc.authority.all (fun b => decide (b < 256)) = true)
    (hdb : acc.data.all (fun b => decide (b < 256)) = true)
    (hcap : acc.data.length ≤ 964) :
    ∃ bs, encodeIdlAccount acc = .ok bs
      ∧ bs = acc.authority ++ (natLE 4 acc.data.length ++ acc.data)
      ∧ bs.length = 36 + acc.data.length
      ∧ decodeIdlAccount bs = some acc := by
  have henc : encodeL IDL_ACCOUNT_LAYOUT (accValue acc) =
      acc.authority ++ (natLE 4 acc.data.length ++ acc.data) := by
    simp [IDL_ACCOUNT_LAYOUT, accValue, encodeL, encodeFields]
  have ha : valFits (.blobL 32) (.vBytes acc.authority) = true := by
    simp [valFits, hab, hlen]
  have hd : valFits .bytesL (.vBytes acc.data) = true := by
    simp [valFits, hdb]
    omega
  have hfits : valFits IDL_ACCOUNT_LAYOUT (accValue acc) = true := by
    simp [IDL_ACCOUNT_LAYOUT, accValue, valFits, fitsFields] at ha hd ⊢
    exact ⟨ha, hd⟩
  have hlenc : (encodeL IDL_ACCOUNT_LAYOUT (accValue acc)).length =
      36 + acc.data.length := by
    rw [henc]
    simp [List.length_append, natLE_length, hlen]
    omega
  have hle : (encodeL IDL_ACCOUNT_LAYOUT (accValue acc)).length ≤ 1000 := by
    omega
  have hdec := encode_decode IDL_ACCOUNT_LAYOUT (accValue acc) [] hfits
  rw [List.append_nil] at hdec
  refine ⟨encodeL IDL_ACCOUNT_LAYOUT (accValue acc), ?_, henc, hlenc, ?_⟩
  · simp only [encodeIdlAccount]
    rw [if_pos hle]
  · simp only [decodeIdlAccount]
    rw [hdec]
    rfl

/-- C9 witness: a 32-byte authority with a 3-byte payload encodes to the
39-byte layout bytes and decodes back. -/
theorem C9_idl_account_codec_witness :
    ∃ bs, encodeIdlAccount ⟨List.replicate 32 1, [7, 8, 9]⟩ = .ok bs
      ∧ bs = List.replicate 32 1 ++ (natLE 4 3 ++ [7, 8, 9])
      ∧ bs.length = 36 + 3
      ∧ decodeIdlAccount bs = some ⟨List.replicate 32 1, [7, 8, 9]⟩ :=
  C9_idl_account_codec ⟨List.replicate 32 1, [7, 8, 9]⟩ rfl rfl rfl (by decide)

/-- C9 counterexample: with a 965-byte payload the layout bytes are
1001 bytes, which cannot come back out of the fixed 1000-byte scratch
buffer: encodeIdlAccount does not return ok bytes of length
36 + data.length, falsifying the unamended universal claim. -/
theorem C9_buffer_counterexample :
    ¬ ∃ bs, encodeIdlAccount ⟨List.replicate 32 0, List.replicate 965 0⟩ = .ok bs
        ∧ bs.length = 36 + (List.replicate 965 (0 : Nat)).length := by
  have hL : (encodeL IDL_ACCOUNT_LAYOUT
      (accValue ⟨List.replicate 32 0, List.replicate 965 0⟩)).length = 1001 := by
    simp [IDL_ACCOUNT_LAYOUT, accValue, encodeL, encodeFields, natLE_length]
  have herr : encodeIdlAccount ⟨List.replicate 32 0, List.replicate 965 0⟩ =
      .error (.js "RangeError: encoding exceeds the 1000-byte scratch buffer") := by
    simp only [encodeIdlAccount]
    rw [hL]
    norm_num
  rintro ⟨bs, hok, _⟩
  rw [herr] at hok
  cases hok

/-- C10: an enum containing a variant whose fields property is present but
an empty array makes accountSize throw — the per-variant reduce runs on an
empty list with no initial value — unlike a variant with absent fields,
which contributes 0 (so a single field-less variant gives size 0 + 1). -/
theorem C10_empty_fields_throws :
    (∀ (fuel : Nat) (idl : Idl) (nm : String) (variants : List IdlEnumVariant)
        (v : IdlEnumVariant), v ∈ variants →
        (v.fields = some (.named []) ∨ v.fields = some (.tuple [])) →
        ∃ e, accountSize (fuel+1) idl ⟨nm, .enum variants⟩ = .error e)
  ∧ (∀ (fuel : Nat) (idl : Idl) (vn : String),
        variantSizeM (fuel+1) idl ⟨vn, none⟩ = .ok 0)
  ∧ (∀ (fuel : Nat) (idl : Idl) (nm vn : String),
        accountSize (fuel+3) idl ⟨nm, .enum [⟨vn, none⟩]⟩ = .ok 1) := by
  refine ⟨?_, ?_, ?_⟩
  · intro fuel idl nm variants v hmem hf
    obtain ⟨e, he⟩ := variantSizesM_error_of_mem variants fuel idl v hmem
      (fun f => variantSizeM_emptyfields_error f idl v hf)
    exact ⟨e, by simp only [accountSize, he, bind, Except.bind]⟩
  · intro fuel idl vn
    simp [variantSizeM]
  · intro fuel idl nm vn
    rfl

/-- C10 witness: a single variant with an empty fields array makes
accountSize throw at a concrete enum. -/
theorem C10_empty_fields_throws_witness :
    ∃ e, accountSize 5 ⟨"v", "n", none, none⟩
        ⟨"T", .enum [⟨"A", some (.named [])⟩]⟩ = .error e :=
  C10_empty_fields_throws.1 4 ⟨"v", "n", none, none⟩ "T" [⟨"A", some (.named [])⟩]
    ⟨"A", some (.named [])⟩ (List.mem_singleton.mpr rfl) (Or.inl rfl)

/-- Sanity check of the modelled SHA-256 against the standard abc test
vector. -/
theorem sha256_abc_vector :
    sha256 (strBytes "abc") =
      [186, 120, 22, 191, 143, 1, 207, 234,
       65, 65, 64, 222, 93, 174, 34, 35,
       176, 3, 97, 163, 150, 23, 122, 156,
       180, 16, 255, 97, 242, 0, 21, 173] := by
  decide

/-- Sanity check of the modelled SHA-256 against the empty-message test
vector. -/
theorem sha256_empty_vector :
    sha256 [] =
      [227, 176, 196, 66, 152, 252, 28, 20,
       154, 251, 244, 200, 153, 111, 185, 36,
       39, 174, 65, 228, 100, 155, 147, 76,
       164, 149, 153, 27, 120, 82, 184, 85] := by
  decide
